import Mathlib

/-!
Shallow embedding of the MWATelescope/eda1 repository's protocol and
delay-solver logic, with theorems checking the natural-language
specification against the code.

Sources embedded:
  * src/beamformer.py : frame escaping (Beamformer.Write), frame
    decoding (Beamformer.GetPacket), checksums (ComputeChecksum8),
    sequence/acknowledge toggling (ProcessPacket), retry policy
    (DoCommand / Reconnect).
  * src/pointing.py : the delay solver (calc_delays, calc_Kdelays).

Bytes are modelled as natural numbers (Python reads the serial stream as
latin-1 characters, so a byte is exactly the code point of a character).
Python integers are modelled as Int / Nat; the solver's floating point
values are modelled as rationals, with the trigonometric values passed
in as oracle parameters (every IEEE float is a rational, and every claim
proved below is universally quantified over those parameters, so the
rational model covers every value the Python code can produce).
-/

namespace EDA

/-! ## Python string primitives used by the frame codec

`str.replace` with a single-character pattern and a two-character
replacement (used by Beamformer.Write), and with a two-character pattern
and a single-character replacement (used by Beamformer.GetPacket).
Python scans left to right and never rescans replaced text.  -/

/-- Python `s.replace(a, r)` for a one-character pattern `a` and
replacement string `r`: every occurrence of `a` is replaced by `r`. -/
def pyReplaceChar (a : ℕ) (r : List ℕ) : List ℕ → List ℕ
  | [] => []
  | c :: rest => (if c = a then r else [c]) ++ pyReplaceChar a r rest

/-- Python `s.replace(ab, c)` for a two-character pattern and a
one-character replacement, scanning left to right without rescanning the
replacement (exactly CPython's semantics for this pattern shape). -/
def pyReplacePair (a b c : ℕ) : List ℕ → List ℕ
  | [] => []
  | [x] => [x]
  | x :: y :: rest =>
      if x = a ∧ y = b then c :: pyReplacePair a b c rest
      else x :: pyReplacePair a b c (y :: rest)

/-! ## Beamformer.Write : escaping (src/beamformer.py lines 283-299)

`data = data.replace('\x7d', '\x7d\x5d').replace('\x7e', '\x7d\x5e')`,
applied to `data[1:]` when the first byte is the 0x7e start byte
(which is left unescaped), and to the whole string otherwise. -/

/-- Escape of the tail of a frame, as in Beamformer.Write: first every
0x7d becomes 0x7d 0x5d, then every 0x7e becomes 0x7d 0x5e. -/
def writeEscapeTail (s : List ℕ) : List ℕ :=
  pyReplaceChar 0x7e [0x7d, 0x5e] (pyReplaceChar 0x7d [0x7d, 0x5d] s)

/-- The byte transformation done by Beamformer.Write before the bytes are
handed to the serial port: a leading 0x7e start byte is not escaped, the
rest of the frame is escaped. -/
def writeEscape (data : List ℕ) : List ℕ :=
  match data with
  | 0x7e :: rest => 0x7e :: writeEscapeTail rest
  | _ => writeEscapeTail data

/-! ## Beamformer.GetPacket : de-escaping (src/beamformer.py line 346)

`data[:totlength].replace('\x7d\x5e', '\x7e').replace('\x7d\x5d', '\x7d')` -/

/-- De-escaping as done by Beamformer.GetPacket on a received frame:
first every pair 0x7d 0x5e becomes 0x7e, then every pair 0x7d 0x5d
becomes 0x7d. -/
def getPacketUnescape (s : List ℕ) : List ℕ :=
  pyReplacePair 0x7d 0x5d 0x7d (pyReplacePair 0x7d 0x5e 0x7e s)

/-! ## Checksums (src/beamformer.py lines 1454-1477)

Python `~cs` is `-cs - 1`; Python `n & 255` for an arbitrary (possibly
negative) integer `n` is `n mod 256` because 255 is the low-byte mask
under the two's-complement semantics of Python's bitwise operators. -/

/-- ComputeChecksum8 from src/beamformer.py: sum the byte values; on
overflow past 255 fold the carry back in (`cs += overflow - (overflow <<
8)`), otherwise take the ones' complement of the low byte (`~cs & 255`).
The returned integer is the code point of the character `chr(cs)` the
Python method returns. -/
def computeChecksum8 (data : List ℕ) : ℤ :=
  let cs : ℕ := data.sum
  if cs > 255 then
    let overflow : ℕ := cs >>> 8
    (cs : ℤ) + ((overflow : ℤ) - ((overflow <<< 8 : ℕ) : ℤ))
  else
    (-(cs : ℤ) - 1) % 256

/-! ## Control byte bits and ProcessPacket's toggle update
(src/beamformer.py lines 10-17 and 368-390) -/

/-- Control-byte flag SN (bit 3), from src/beamformer.py. -/
def SN : ℕ := 8

/-- Control-byte flag AN (bit 2), from src/beamformer.py. -/
def AN : ℕ := 4

/-- The (AckNumber, SequenceNumber) pair that Beamformer.ProcessPacket
stores after inspecting the SN and AN bits of a received frame's control
byte (src/beamformer.py lines 379-390). -/
def processPacketToggles (control : ℕ) : ℕ × ℕ :=
  let sn : Bool := control &&& SN = SN
  let an : Bool := control &&& AN = AN
  if sn then
    if an then (0, 1)
    else (0, 0)
  else
    if an then (1, 1)
    else (1, 0)

/-! ## DoCommand retry loop (src/beamformer.py lines 498-514)

The transport is abstracted as a function `attempt : ℕ → Bool` giving
the outcome of the n-th Write/ProcessPacket exchange (n counted from 1,
as the Python variable `tries` does).  `Reconnect` (CloseConnection,
3-second sleep, OpenConnection) is modelled as a counted event.  The
loop `while (not ok) and (tries < 10)` is modelled with the remaining
try budget `10 - tries` as the recursion fuel, which is exact: the loop
body always increments `tries` by one. -/

/-- One execution of DoCommand's retry loop starting with `tries` tries
already used, where `budget = 10 - tries`.  Returns the final value of
`tries`, the number of Reconnect cycles performed, and the final `ok`. -/
def doCommandLoop (attempt : ℕ → Bool) : ℕ → ℕ → ℕ → ℕ × ℕ × Bool
  | 0, tries, reconnects => (tries, reconnects, false)
  | budget + 1, tries, reconnects =>
      let tries := tries + 1
      let ok := attempt tries
      if ok then (tries, reconnects, true)
      else doCommandLoop attempt budget tries (reconnects + 1)

/-- Beamformer.DoCommand: try the command exchange, with a full
Reconnect cycle after every failed exchange, at most 10 exchanges. -/
def doCommand (attempt : ℕ → Bool) : ℕ × ℕ × Bool :=
  doCommandLoop attempt 10 0 0

/-! ## Lemmas about the frame codec -/

/-- Unfolding lemma for the single-character replace. -/
lemma pyReplaceChar_cons (a : ℕ) (r : List ℕ) (c : ℕ) (l : List ℕ) :
    pyReplaceChar a r (c :: l) = (if c = a then r else [c]) ++ pyReplaceChar a r l := rfl

/-- A pair replace leaves a head byte alone when it cannot start the
pattern. -/
lemma pyReplacePair_cons_ne (a b c x : ℕ) (l : List ℕ) (h : x ≠ a) :
    pyReplacePair a b c (x :: l) = x :: pyReplacePair a b c l := by
  cases l with
  | nil => rfl
  | cons y r => simp [pyReplacePair, h]

/-- A pair replace steps over a first byte that matches the pattern
start but whose successor does not complete the pattern. -/
lemma pyReplacePair_cons_two (a b c x y : ℕ) (l : List ℕ)
    (h : ¬(x = a ∧ y = b)) :
    pyReplacePair a b c (x :: y :: l) = x :: pyReplacePair a b c (y :: l) := by
  simp [pyReplacePair, h]

/-- A pair replace rewrites an occurrence of the pattern at the head. -/
lemma pyReplacePair_cons_hit (a b c : ℕ) (l : List ℕ) :
    pyReplacePair a b c (a :: b :: l) = c :: pyReplacePair a b c l := by
  simp [pyReplacePair]

/-- The first de-escaping pass of GetPacket (0x7d 0x5e back to 0x7e)
undoes the second escaping pass of Write, leaving exactly the
0x7d-escaping. -/
lemma unescape_first_pass (s : List ℕ) :
    pyReplacePair 0x7d 0x5e 0x7e (writeEscapeTail s) =
      pyReplaceChar 0x7d [0x7d, 0x5d] s := by
  induction s with
  | nil => rfl
  | cons c s ih =>
      by_cases h7d : c = 0x7d
      · subst h7d
        show pyReplacePair 0x7d 0x5e 0x7e (0x7d :: 0x5d :: writeEscapeTail s) =
          0x7d :: 0x5d :: pyReplaceChar 0x7d [0x7d, 0x5d] s
        rw [pyReplacePair_cons_two 0x7d 0x5e 0x7e 0x7d 0x5d (writeEscapeTail s)
              (by decide),
            pyReplacePair_cons_ne 0x7d 0x5e 0x7e 0x5d (writeEscapeTail s)
              (by decide), ih]
      · by_cases h7e : c = 0x7e
        · subst h7e
          show pyReplacePair 0x7d 0x5e 0x7e (0x7d :: 0x5e :: writeEscapeTail s) =
            0x7e :: pyReplaceChar 0x7d [0x7d, 0x5d] s
          rw [pyReplacePair_cons_hit, ih]
        · have hesc : writeEscapeTail (c :: s) = c :: writeEscapeTail s := by
            simp [writeEscapeTail, pyReplaceChar_cons, h7d, h7e]
          have hchr : pyReplaceChar 0x7d [0x7d, 0x5d] (c :: s) =
              c :: pyReplaceChar 0x7d [0x7d, 0x5d] s := by
            simp [pyReplaceChar_cons, h7d]
          rw [hesc, hchr, pyReplacePair_cons_ne 0x7d 0x5e 0x7e c
                (writeEscapeTail s) h7d, ih]

/-- The second de-escaping pass of GetPacket (0x7d 0x5d back to 0x7d)
undoes the first escaping pass of Write. -/
lemma unescape_second_pass (s : List ℕ) :
    pyReplacePair 0x7d 0x5d 0x7d (pyReplaceChar 0x7d [0x7d, 0x5d] s) = s := by
  induction s with
  | nil => rfl
  | cons c s ih =>
      by_cases h7d : c = 0x7d
      · subst h7d
        show pyReplacePair 0x7d 0x5d 0x7d
            (0x7d :: 0x5d :: pyReplaceChar 0x7d [0x7d, 0x5d] s) = 0x7d :: s
        rw [pyReplacePair_cons_hit, ih]
      · have hchr : pyReplaceChar 0x7d [0x7d, 0x5d] (c :: s) =
            c :: pyReplaceChar 0x7d [0x7d, 0x5d] s := by
          simp [pyReplaceChar_cons, h7d]
        rw [hchr, pyReplacePair_cons_ne 0x7d 0x5d 0x7d c
              (pyReplaceChar 0x7d [0x7d, 0x5d] s) h7d, ih]

/-! ## Claim theorems for the frame codec and checksums -/

/-- C1: Round-trip framing.  For every frame byte string beginning with
the 0x7e start byte (a 5-byte short frame, or a 7+length long frame with
payload length at most 250), including frames whose later bytes contain
0x7e and 0x7d, escaping as done by Beamformer.Write followed by
de-escaping as done by Beamformer.GetPacket reproduces the original
frame bytes exactly. -/
theorem write_getPacket_roundtrip (frame : List ℕ)
    (hstart : frame.head? = some 0x7e)
    (hshape : frame.length = 5 ∨ ∃ plen, plen ≤ 250 ∧ frame.length = 7 + plen) :
    getPacketUnescape (writeEscape frame) = frame := by
  obtain ⟨rest, rfl⟩ : ∃ rest, frame = 0x7e :: rest := by
    cases frame with
    | nil => simp at hstart
    | cons c rest =>
        refine ⟨rest, ?_⟩
        simp only [List.head?_cons, Option.some_inj] at hstart
        rw [hstart]
  show pyReplacePair 0x7d 0x5d 0x7d
      (pyReplacePair 0x7d 0x5e 0x7e (0x7e :: writeEscapeTail rest)) =
    0x7e :: rest
  rw [pyReplacePair_cons_ne 0x7d 0x5e 0x7e 0x7e (writeEscapeTail rest)
        (by decide),
      unescape_first_pass,
      pyReplacePair_cons_ne 0x7d 0x5d 0x7d 0x7e
        (pyReplaceChar 0x7d [0x7d, 0x5d] rest) (by decide),
      unescape_second_pass]

/-- Witness for C1: a concrete 5-byte frame containing both the start
byte 0x7e and the escape byte 0x7d in its later bytes round-trips. -/
theorem write_getPacket_roundtrip_witness :
    getPacketUnescape (writeEscape [0x7e, 0x7d, 0x7e, 0x00, 0x5e]) =
      [0x7e, 0x7d, 0x7e, 0x00, 0x5e] :=
  write_getPacket_roundtrip [0x7e, 0x7d, 0x7e, 0x00, 0x5e] rfl (Or.inl rfl)

/-- C2: ComputeChecksum8 returns the carry-folded sum
`sum + (sum >>> 8) - ((sum >>> 8) <<< 8)` (with no ones' complement)
when the byte sum exceeds 255, and the ones' complement `~sum & 0xFF`,
which for `sum ≤ 255` equals `255 - sum`, otherwise. -/
theorem computeChecksum8_branches (data : List ℕ) :
    (data.sum > 255 →
      computeChecksum8 data =
        (data.sum : ℤ) + ((data.sum >>> 8 : ℕ) : ℤ)
          - (((data.sum >>> 8) <<< 8 : ℕ) : ℤ))
  ∧ (data.sum ≤ 255 →
      computeChecksum8 data = 255 - (data.sum : ℤ)) := by
  constructor
  · intro h
    simp only [computeChecksum8, if_pos h]
    ring
  · intro h
    have hlt : ¬(data.sum > 255) := by omega
    simp only [computeChecksum8, if_neg hlt]
    omega

/-- Witness for C2: both branches evaluated at concrete inputs.  The
byte sum 511 overflows and carry-folds to 256; the byte sum 6 does not
overflow and complements to 249. -/
theorem computeChecksum8_branches_witness :
    computeChecksum8 [255, 255, 1] = 256 ∧ computeChecksum8 [1, 2, 3] = 249 := by
  constructor
  · rw [(computeChecksum8_branches [255, 255, 1]).1 (by decide)]
    decide
  · rw [(computeChecksum8_branches [1, 2, 3]).2 (by decide)]
    decide

/-- C10 (code bug): on the three input bytes 255, 255, 1 (byte sum 511)
ComputeChecksum8 returns the code point 256, which is not a byte: the
character `chr(256)` cannot be encoded as latin-1, so appending it to a
frame in CompileSmallMessage makes Beamformer.Write's
`data.encode('latin-1')` raise. -/
theorem computeChecksum8_can_exceed_byte :
    computeChecksum8 [255, 255, 1] = 256 ∧ 255 < computeChecksum8 [255, 255, 1] := by
  decide

/-- C6: ProcessPacket's four-entry mapping from the received SN and AN
control bits to the stored pair (AckNumber, SequenceNumber): SN only
gives ack 0 seq 0; SN and AN give ack 0 seq 1; AN only gives ack 1 seq
1; neither gives ack 1 seq 0. -/
theorem processPacket_toggle_mapping (control : ℕ) :
    (control &&& SN = SN → ¬control &&& AN = AN →
      processPacketToggles control = (0, 0))
  ∧ (control &&& SN = SN → control &&& AN = AN →
      processPacketToggles control = (0, 1))
  ∧ (¬control &&& SN = SN → control &&& AN = AN →
      processPacketToggles control = (1, 1))
  ∧ (¬control &&& SN = SN → ¬control &&& AN = AN →
      processPacketToggles control = (1, 0)) := by
  refine ⟨fun h1 h2 => ?_, fun h1 h2 => ?_, fun h1 h2 => ?_, fun h1 h2 => ?_⟩ <;>
    simp [processPacketToggles, h1, h2]

/-- Witness for C6: the four SN/AN combinations evaluated on concrete
control bytes 8 (SN only), 12 (SN and AN), 4 (AN only) and 0 (neither). -/
theorem processPacket_toggle_mapping_witness :
    processPacketToggles 8 = (0, 0) ∧ processPacketToggles 12 = (0, 1) ∧
      processPacketToggles 4 = (1, 1) ∧ processPacketToggles 0 = (1, 0) :=
  ⟨(processPacket_toggle_mapping 8).1 (by decide) (by decide),
   (processPacket_toggle_mapping 12).2.1 (by decide) (by decide),
   (processPacket_toggle_mapping 4).2.2.1 (by decide) (by decide),
   (processPacket_toggle_mapping 0).2.2.2 (by decide) (by decide)⟩

/-- C5 counterexample: with a transport on which every exchange fails,
DoCommand performs 10 reconnect cycles (one after every failed attempt,
including the last), not the 9 the claim states. -/
theorem doCommand_reconnects_counterexample :
    (doCommand fun _ => false) = (10, 10, false) ∧ (10 : ℕ) ≠ 9 := by
  constructor
  · rfl
  · decide

/-- C5 as amended: when every command exchange fails, DoCommand attempts
the command exactly 10 times, performs exactly 10 full reconnect cycles
(one after each failed attempt, including the last), then reports
failure; it never loops indefinitely (the loop is bounded by the try
budget). -/
theorem doCommand_retry_exhaustion (attempt : ℕ → Bool)
    (hfail : ∀ n, attempt n = false) :
    doCommand attempt = (10, 10, false) := by
  have key : ∀ budget tries reconnects,
      doCommandLoop attempt budget tries reconnects =
        (tries + budget, reconnects + budget, false) := by
    intro budget
    induction budget with
    | zero => intro tries reconnects; simp [doCommandLoop]
    | succ b ih =>
        intro tries reconnects
        simp only [doCommandLoop, hfail, Bool.false_eq_true, if_neg,
          ite_false, ih]
        have h1 : tries + 1 + b = tries + (b + 1) := by omega
        have h2 : reconnects + 1 + b = reconnects + (b + 1) := by omega
        rw [h1, h2]
  exact key 10 0 0

/-- Witness for C5's amended theorem: the always-failing transport. -/
theorem doCommand_retry_exhaustion_witness :
    (doCommand fun _ => false) = (10, 10, false) :=
  doCommand_retry_exhaustion (fun _ => false) (fun _ => rfl)

/-! ## Beamformer.GetPacket : the full decode loop
(src/beamformer.py lines 301-346)

The serial port is abstracted as `reads : ℕ → List ℕ`, the bytes
returned by the n-th `self.pol.read(...)` call (a read that times out
returns the empty list, like an empty string in Python).  The loop is
modelled with one read per recursion step and an outer fuel (the source
loop need not terminate against an adversarial byte stream); the result
carries, besides the returned string and the new `self.leftovers`, the
number of reads consumed and the final value of the `timeouts` counter,
so that the timeout behaviour can be specified. -/

/-- The append step of GetPacket's loop body: an escape byte 0x7d in
final position is held back in `leftovers`, everything else is appended
to `data` behind any held-back bytes. -/
def processChunk (data leftovers inchars : List ℕ) : List ℕ × List ℕ :=
  if inchars.getLast? = some 0x7d
  then (data ++ (leftovers ++ inchars.dropLast), [0x7d])
  else (data ++ (leftovers ++ inchars), [])

/-- GetPacket's resynchronisation: strip everything before the first
0x7e start byte, or everything if there is no start byte. -/
def resyncData (d : List ℕ) : List ℕ :=
  if 0x7e ∈ d then d.drop (d.indexOf 0x7e) else []

/-- The expected total on-wire frame length derived from the length byte
`data[3]`: 5 for a short packet, 7 plus the payload length otherwise,
plus one extra wire byte per 0x7d escape seen so far. -/
def frameTotlength (d : List ℕ) : ℕ :=
  if d.getD 3 0 = 0 then 5 + d.count 0x7d else 7 + d.getD 3 0 + d.count 0x7d

/-- One GetPacket decode loop.  Each step performs one `self.pol.read`:
an empty read increments `timeouts` and gives up (returning the empty
string, as the source does) once `timeouts` reaches 2; a non-empty read
executes the body of the source's outer `while not gotpacket` loop.
Returns `(result, leftovers, reads consumed, final timeouts)`. -/
def getPacketLoop (reads : ℕ → List ℕ) :
    ℕ → List ℕ → List ℕ → ℕ → ℕ → ℕ → Option (List ℕ × List ℕ × ℕ × ℕ)
  | 0, _, _, _, _, _ => none
  | fuel + 1, data, leftovers, ridx, timeouts, totlength =>
      if reads ridx = [] then
        if timeouts + 1 ≥ 2 then some ([], leftovers, ridx + 1, timeouts + 1)
        else getPacketLoop reads fuel data leftovers (ridx + 1) (timeouts + 1)
               totlength
      else
        if (resyncData (processChunk data leftovers (reads ridx)).1).length < 5 then
          getPacketLoop reads fuel
            (resyncData (processChunk data leftovers (reads ridx)).1)
            (processChunk data leftovers (reads ridx)).2
            (ridx + 1) timeouts totlength
        else if frameTotlength (resyncData (processChunk data leftovers
            (reads ridx)).1) ≤
            (resyncData (processChunk data leftovers (reads ridx)).1).length then
          some (getPacketUnescape
                  ((resyncData (processChunk data leftovers (reads ridx)).1).take
                    (frameTotlength (resyncData (processChunk data leftovers
                      (reads ridx)).1))),
                (resyncData (processChunk data leftovers (reads ridx)).1).drop
                  (frameTotlength (resyncData (processChunk data leftovers
                    (reads ridx)).1)),
                ridx + 1, timeouts)
        else
          getPacketLoop reads fuel
            (resyncData (processChunk data leftovers (reads ridx)).1)
            (processChunk data leftovers (reads ridx)).2
            (ridx + 1) timeouts
            (frameTotlength (resyncData (processChunk data leftovers
              (reads ridx)).1))

/-- A call of Beamformer.GetPacket: empty `data`, the instance's
current `leftovers`, `timeouts = 0`, `totlength = 5`. -/
def getPacketRun (reads : ℕ → List ℕ) (leftovers0 : List ℕ) (fuel : ℕ) :
    Option (List ℕ × List ℕ × ℕ × ℕ) :=
  getPacketLoop reads fuel [] leftovers0 0 0 5

/-- Number of reads among the first `n` that returned no bytes. -/
def emptyReads (reads : ℕ → List ℕ) (n : ℕ) : ℕ :=
  ((List.range n).filter fun i => decide (reads i = [])).length

lemma emptyReads_succ (reads : ℕ → List ℕ) (n : ℕ) :
    emptyReads reads (n + 1) =
      emptyReads reads n + if reads n = [] then 1 else 0 := by
  unfold emptyReads
  rw [List.range_succ, List.filter_append, List.length_append]
  by_cases h : reads n = [] <;> simp [h]

/-- A non-empty string stays non-empty under the pair replaces of
GetPacket's de-escaping (each scanning step emits at least one byte). -/
lemma pyReplacePair_ne_nil (a b c : ℕ) (l : List ℕ) (h : l ≠ []) :
    pyReplacePair a b c l ≠ [] := by
  match l with
  | [] => exact absurd rfl h
  | [x] => simp [pyReplacePair]
  | x :: y :: r =>
      rw [pyReplacePair]
      split <;> simp

/-- De-escaping a non-empty received frame yields a non-empty string. -/
lemma getPacketUnescape_ne_nil (l : List ℕ) (h : l ≠ []) :
    getPacketUnescape l ≠ [] :=
  pyReplacePair_ne_nil _ _ _ _ (pyReplacePair_ne_nil _ _ _ _ h)

/-- Invariant of the decode loop: the `timeouts` counter equals the
number of empty reads consumed so far and never exceeds 1 except at the
moment of giving up; an empty-string result is returned exactly at the
second empty read. -/
lemma getPacketLoop_invariant (reads : ℕ → List ℕ) :
    ∀ fuel data leftovers ridx timeouts totlength res lf ridxEnd tEnd,
      timeouts ≤ 1 → timeouts = emptyReads reads ridx →
      getPacketLoop reads fuel data leftovers ridx timeouts totlength =
        some (res, lf, ridxEnd, tEnd) →
      tEnd = emptyReads reads ridxEnd ∧ (res = [] ↔ tEnd = 2) ∧
        (res ≠ [] → tEnd ≤ 1) := by
  intro fuel
  induction fuel with
  | zero =>
      intro data leftovers ridx timeouts totlength res lf ridxEnd tEnd
        _ _ hsome
      exact absurd hsome (by simp [getPacketLoop])
  | succ fuel ih =>
      intro data leftovers ridx timeouts totlength res lf ridxEnd tEnd
        hle hcount hsome
      rw [getPacketLoop] at hsome
      by_cases hrd : reads ridx = []
      · rw [if_pos hrd] at hsome
        by_cases hto : timeouts + 1 ≥ 2
        · rw [if_pos hto] at hsome
          simp only [Option.some_inj, Prod.mk.injEq] at hsome
          obtain ⟨rfl, rfl, rfl, rfl⟩ := hsome
          refine ⟨?_, ?_, ?_⟩
          · rw [emptyReads_succ, if_pos hrd, ← hcount]
          · constructor
            · intro _; omega
            · intro _; rfl
          · intro hne; exact absurd rfl hne
        · rw [if_neg hto] at hsome
          refine ih data leftovers (ridx + 1) (timeouts + 1) totlength
            res lf ridxEnd tEnd (by omega) ?_ hsome
          rw [emptyReads_succ, if_pos hrd, ← hcount]
      · rw [if_neg hrd] at hsome
        have hcount1 : timeouts = emptyReads reads (ridx + 1) := by
          rw [emptyReads_succ, if_neg hrd, ← hcount]
          omega
        split at hsome
        · exact ih _ _ (ridx + 1) timeouts totlength res lf ridxEnd tEnd
            hle hcount1 hsome
        · split at hsome
          · rename_i hlen5 hlenTot
            simp only [Option.some_inj, Prod.mk.injEq] at hsome
            obtain ⟨hres, hlf, rfl, rfl⟩ := hsome
            have hresne : res ≠ [] := by
              rw [← hres]
              apply getPacketUnescape_ne_nil
              intro htake
              rw [List.take_eq_nil_iff] at htake
              rcases htake with h0 | h0
              · have h5 : 5 ≤ frameTotlength (resyncData (processChunk data
                    leftovers (reads ridx)).1) := by
                  unfold frameTotlength
                  split <;> omega
                omega
              · rw [h0] at hlen5
                simp at hlen5
            refine ⟨hcount1, ?_, fun _ => hle⟩
            constructor
            · intro h0; exact absurd h0 hresne
            · intro h2; omega
          · exact ih _ _ (ridx + 1) timeouts _ res lf ridxEnd tEnd
              hle hcount1 hsome

/-- C9 counterexample: a byte stream whose empty reads (at read indices
1 and 3) are separated by a read that returns data (index 2), with the
remaining frame bytes available from read 4 on.  No two consecutive
reads are empty, and the frame would complete, yet GetPacket returns the
empty string (timeout): the `timeouts` counter is initialised once per
call and never reset when data arrives. -/
theorem getPacket_nonconsecutive_timeout_counterexample :
    getPacketRun
        (fun i => if i = 0 then [0x7e, 0, 0] else if i = 2 then [0] else [])
        [] 10 = some ([], [], 4, 2) ∧
      (fun i => if i = 0 then [0x7e, 0, 0] else
        if i = 2 then [0] else ([] : List ℕ)) 1 = [] ∧
      (fun i => if i = 0 then [0x7e, 0, 0] else
        if i = 2 then [0] else ([] : List ℕ)) 2 ≠ [] ∧
      (fun i => if i = 0 then [0x7e, 0, 0] else
        if i = 2 then [0] else ([] : List ℕ)) 3 = [] := by
  decide

/-- C9 as amended: GetPacket gives up and reports a timeout failure
(returns the empty string, no packet) as soon as two read attempts in
total have returned no bytes — whether or not they are consecutive,
because the timeout counter is never reset when data arrives — and it
returns a decoded packet only on executions in which at most one read
attempt returned no bytes.  The final `timeouts` counter equals the
number of empty reads consumed; an empty-string result coincides with it
reaching 2. -/
theorem getPacket_two_total_timeouts (reads : ℕ → List ℕ)
    (leftovers0 : List ℕ) (fuel : ℕ) (res lf : List ℕ) (ridxEnd tEnd : ℕ)
    (h : getPacketRun reads leftovers0 fuel = some (res, lf, ridxEnd, tEnd)) :
    tEnd = emptyReads reads ridxEnd ∧ (res = [] ↔ tEnd = 2) ∧
      (res ≠ [] → tEnd ≤ 1) :=
  getPacketLoop_invariant reads fuel [] leftovers0 0 0 5 res lf ridxEnd tEnd
    (by omega) (by simp [emptyReads]) h

/-- Witness for C9's amended theorem: a frame delivered over three
reads with one isolated empty read in between is decoded as a complete
packet, with a final timeout count of 1. -/
theorem getPacket_two_total_timeouts_witness :
    (1 : ℕ) = emptyReads
        (fun i => if i = 0 then [0x7e, 0, 0, 0] else
          if i = 2 then [0xff] else []) 3 ∧
      (([0x7e, 0, 0, 0, 0xff] : List ℕ) = [] ↔ (1 : ℕ) = 2) ∧
      (([0x7e, 0, 0, 0, 0xff] : List ℕ) ≠ [] → (1 : ℕ) ≤ 1) :=
  getPacket_two_total_timeouts
    (fun i => if i = 0 then [0x7e, 0, 0, 0] else if i = 2 then [0xff] else [])
    [] 10 [0x7e, 0, 0, 0, 0xff] [] 3 1 (by decide)

/-! ## The delay solver (src/pointing.py)

The solver works on Python floats.  It is modelled over ℚ: every IEEE
float is a rational, the control flow of the solver depends only on
exact comparisons of the computed values, and every universally
quantified theorem below ranges over all rationals, hence over every
value the floating point program can produce.  The trigonometric values
`sin(azr)`, `cos(azr)`, `sin(zar)`, `cos(zar)` are inputs of the model
(oracle parameters), since the claims under study are independent of
their actual values. -/

/-- Speed of light in meters/picosecond (the literal 0.000299798 from
src/pointing.py). -/
def lightspeed : ℚ := 299798 / 10 ^ 9

/-- Kaelus delay steps kept in reserve (HEADROOM = 0). -/
def HEADROOM : ℤ := 0

/-- MWA beamformer delay quantisation in picoseconds (435.0). -/
def MSTEP : ℚ := 435

/-- Kaelus beamformer delay quantisation in picoseconds (92.0). -/
def KSTEP : ℚ := 92

/-- Smallest physical first-stage integer delay. -/
def MINV1 : ℤ := -16

/-- Largest physical first-stage integer delay. -/
def MAXV1 : ℤ := 15

/-- Smallest physical second-stage (Kaelus) integer delay. -/
def MINV2 : ℤ := -128

/-- Largest physical second-stage (Kaelus) integer delay. -/
def MAXV2 : ℤ := 127

/-- The default `errorlimit` (MAXERRORSTRICT = 8.0 / 100 / C). -/
def MAXERRORSTRICT : ℚ := 8 / 100 / lightspeed

/-- The effectively infinite penalty 9e99 used by the optimiser. -/
def BIGPENALTY : ℚ := 9 * 10 ^ 99

/-- Python 3 `round` (round half to even) of a rational, as used in
`int(round(x))` throughout src/pointing.py. -/
def pyRound (q : ℚ) : ℤ :=
  if q - (⌊q⌋ : ℚ) < 1 / 2 then ⌊q⌋
  else if (1 : ℚ) / 2 < q - (⌊q⌋ : ℚ) then ⌊q⌋ + 1
  else if ⌊q⌋ % 2 = 0 then ⌊q⌋ else ⌊q⌋ + 1

/-- Inputs of calc_delays.  `sinAz`, `cosAz`, `sinZa`, `cosZa` stand for
`math.sin(azr)`, `math.cos(azr)`, `math.sin(zar)`, `math.cos(zar)`.
Fields, in order: offsets, az, el, sinAz, cosAz, sinZa, cosZa,
errorlimit, strict, optimise, clipdelays, cpos, bfcorrs. -/
structure SolveParams where
  offsets : Fin 16 → Fin 16 → ℚ × ℚ × ℚ
  az : ℚ
  el : ℚ
  sinAz : ℚ
  cosAz : ℚ
  sinZa : ℚ
  cosZa : ℚ
  errorlimit : ℚ
  strict : Bool
  optimise : Bool
  clipdelays : Bool
  cpos : ℚ × ℚ × ℚ
  bfcorrs : Fin 16 → ℚ

/-- The integer delay tables built by the solver: `fine` is
idelays['0'..'F'] (256 first-stage MWA beamformer delays), `kdel` is
idelays['K'] (16 second-stage Kaelus delays). -/
structure DelayTable where
  fine : Fin 16 → Fin 16 → ℤ
  kdel : Fin 16 → ℤ

/-- The diagnostics tuple (delays, delayerrs, sqe, maxerr, offcount)
returned alongside the integer delays. -/
structure SolveDiag where
  delays : Fin 16 → Fin 16 → ℚ
  delayerrs : Fin 16 → Fin 16 → ℚ
  sqe : ℚ
  maxerr : ℚ
  offcount : ℕ

/-- Ideal geometric delay in picoseconds of dipole `d` on first-stage
beamformer `b`: `((x*sin(azr) + y*cos(azr))*sin(zar) + z*cos(zar)) / C`
for the cpos-shifted offsets, plus the per-beamformer correction. -/
def geomDelay (p : SolveParams) (b d : Fin 16) : ℚ :=
  ((((p.offsets b d).1 - p.cpos.1) * p.sinAz
      + ((p.offsets b d).2.1 - p.cpos.2.1) * p.cosAz) * p.sinZa
    + ((p.offsets b d).2.2 - p.cpos.2.2) * p.cosZa) / lightspeed
    + p.bfcorrs b

/-- Mean of the 16 geometric delays of one first-stage beamformer. -/
def bfMean (p : SolveParams) (b : Fin 16) : ℚ :=
  ((List.finRange 16).map (fun d => geomDelay p b d)).sum / 16

/-- First draft of the Kaelus delay: `int(round(delay2 / KSTEP))`. -/
def naiveKid (m : ℚ) : ℤ := pyRound (m / KSTEP)

/-- The clamp of the naive Kaelus delay to the physical range, returning
the clamped integer delay and the matching `delay2` (left at the mean
when no clamping was needed, as the source does). -/
def clampKidDelay (m : ℚ) : ℤ × ℚ :=
  if naiveKid m > MAXV2 - HEADROOM then
    (MAXV2 - HEADROOM, ((MAXV2 - HEADROOM : ℤ) : ℚ) * KSTEP)
  else if naiveKid m < MINV2 + HEADROOM then
    (MINV2 + HEADROOM, ((MINV2 + HEADROOM : ℤ) : ℚ) * KSTEP)
  else (naiveKid m, m)

/-- The test `not (MINV1 < idelay1 < MAXV1)` of the optimiser, deciding
whether a dipole with ideal delay `delay` invalidates the candidate
Kaelus delay `kidelay`. -/
def dipolePenalised (delay : ℚ) (kidelay : ℤ) : Bool :=
  !(decide (MINV1 < pyRound ((delay - (kidelay : ℚ) * KSTEP) / MSTEP)) &&
    decide (pyRound ((delay - (kidelay : ℚ) * KSTEP) / MSTEP) < MAXV1))

/-- The contribution of one dipole to the optimiser's sum-of-squares
cost of a candidate Kaelus delay: 9e99 when the resulting first-stage
delay fails the `MINV1 < idelay1 < MAXV1` test, plus the squared
residual in either case. -/
def dipoleCost (delay : ℚ) (kidelay : ℤ) : ℚ :=
  (if dipolePenalised delay kidelay then BIGPENALTY else 0) +
    (delay - ((pyRound ((delay - (kidelay : ℚ) * KSTEP) / MSTEP) : ℚ) * MSTEP
      + (kidelay : ℚ) * KSTEP)) ^ 2

/-- The optimiser's cost of one candidate Kaelus delay over the 16
dipoles of one first-stage beamformer. -/
def candidateCost (dl : Fin 16 → ℚ) (kidelay : ℤ) : ℚ :=
  ((List.finRange 16).map (fun d => dipoleCost (dl d) kidelay)).sum

/-- Python `range(a, b + 1)` over integers. -/
def intRange (a b : ℤ) : List ℤ :=
  (List.range (b + 1 - a).toNat).map (fun i : ℕ => a + (i : ℤ))

/-- The best-candidate fold of the optimiser: keep the candidate with
the strictly smallest cost seen so far (stable first-wins tie-break). -/
def bestKidFold (cost : ℤ → ℚ) : List ℤ → ℤ × ℚ → ℤ × ℚ
  | [], best => best
  | k :: rest, best =>
      bestKidFold cost rest (if cost k < best.2 then (k, cost k) else best)

/-- The optimiser of calc_delays: try all candidate Kaelus delays within
plus/minus 6 of the clamped naive value (window clipped to the physical
range), starting from `(naive value, 9e99)`. -/
def optimiseKid (cost : ℤ → ℚ) (kid : ℤ) : ℤ :=
  (bestKidFold cost
      (intRange (max (MINV2 + HEADROOM) (kid - 6))
        (min (MAXV2 - HEADROOM) (kid + 6)))
      (kid, BIGPENALTY)).1

/-- The second-stage result of calc_delays for one beamformer: the
integer Kaelus delay and the `delay2` used for the first-stage
computation. -/
def bfStage2 (p : SolveParams) (b : Fin 16) : ℤ × ℚ :=
  if p.optimise then
    ((optimiseKid (candidateCost (fun d => geomDelay p b d))
        (clampKidDelay (bfMean p b)).1),
      ((optimiseKid (candidateCost (fun d => geomDelay p b d))
        (clampKidDelay (bfMean p b)).1 : ℤ) : ℚ) * KSTEP)
  else clampKidDelay (bfMean p b)

/-- The first-stage integer delay of one dipole before the final error
pass: `int(round((delay - delay2) / MSTEP))`, clamped to
[MINV1, MAXV1] when `clipdelays` is set. -/
def fineInit (p : SolveParams) (b d : Fin 16) : ℤ :=
  if p.clipdelays then
    if pyRound ((geomDelay p b d - (bfStage2 p b).2) / MSTEP) < MINV1 then MINV1
    else if pyRound ((geomDelay p b d - (bfStage2 p b).2) / MSTEP) > MAXV1 then
      MAXV1
    else pyRound ((geomDelay p b d - (bfStage2 p b).2) / MSTEP)
  else pyRound ((geomDelay p b d - (bfStage2 p b).2) / MSTEP)

/-- Write one cell of the 16x16 first-stage table. -/
def setFine (t : DelayTable) (b d : Fin 16) (v : ℤ) : DelayTable :=
  ⟨fun b2 d2 => if b2 = b ∧ d2 = d then v else t.fine b2 d2, t.kdel⟩

/-- Write one cell of a 16x16 rational table. -/
def setCell (e : Fin 16 → Fin 16 → ℚ) (b d : Fin 16) (v : ℚ) :
    Fin 16 → Fin 16 → ℚ :=
  fun b2 d2 => if b2 = b ∧ d2 = d then v else e b2 d2

/-- The (bfid, dipid) pairs in the order the final loop visits them. -/
def allPairs : List (Fin 16 × Fin 16) :=
  (List.finRange 16).flatMap (fun b => (List.finRange 16).map (fun d => (b, d)))

/-- The final error pass shared (verbatim) by calc_delays and
calc_Kdelays: for every dipole compute the residual between ideal and
quantised delay, track the largest residual and the sum of squares, and
on a residual beyond `errorlimit` either abort (strict), or disable the
dipole by writing the sentinel 16 into its first-stage delay (clip) and
count it as off. -/
def finalLoop (strict clipdelays : Bool) (errorlimit : ℚ)
    (delays : Fin 16 → Fin 16 → ℚ) :
    List (Fin 16 × Fin 16) → DelayTable → (Fin 16 → Fin 16 → ℚ) → ℚ → ℚ → ℕ →
      Option (DelayTable × SolveDiag)
  | [], tbl, errs, sqe, maxerr, off => some (tbl, ⟨delays, errs, sqe, maxerr, off⟩)
  | (b, d) :: rest, tbl, errs, sqe, maxerr, off =>
      let err := delays b d -
        ((tbl.fine b d : ℚ) * MSTEP + (tbl.kdel b : ℚ) * KSTEP)
      let errs2 := setCell errs b d err
      let maxerr2 := if |err| > maxerr then |err| else maxerr
      if |err| > errorlimit then
        if strict then none
        else
          finalLoop strict clipdelays errorlimit delays rest
            (if clipdelays then setFine tbl b d 16 else tbl)
            errs2 (sqe + err * err) maxerr2 (off + 1)
      else
        finalLoop strict clipdelays errorlimit delays rest tbl errs2
          (sqe + err * err) maxerr2 off

/-- calc_delays from src/pointing.py: the sanity check
`if abs(za) > 90: return None, None` with `za = 90 - el`, the per-
beamformer quantisation, and the final error pass. -/
def calc_delays (p : SolveParams) : Option (DelayTable × SolveDiag) :=
  if |90 - p.el| > 90 then none
  else
    finalLoop p.strict p.clipdelays p.errorlimit (geomDelay p) allPairs
      ⟨fun b d => fineInit p b d, fun b => (bfStage2 p b).1⟩
      (fun _ _ => 0) 0 0 0

/-! ## calc_Kdelays (src/pointing.py lines 330-490)

calc_Kdelays recomputes only the second-stage (Kaelus) delays for an
existing first-stage table `indelays`; the geometric delay has no
per-beamformer correction term here, the clamp does not touch `delay2`
(those two lines are commented out in the source), the optimiser's cost
uses the fixed input first-stage delays, and the first-stage table is
copied unchanged from the input.  The final error pass is the same code
as in calc_delays.  The source also fails when `indelays is None`; the
model takes the table as a total argument. -/

/-- Ideal geometric delay as computed by calc_Kdelays (no BFCORRS
term). -/
def geomDelayK (p : SolveParams) (b d : Fin 16) : ℚ :=
  ((((p.offsets b d).1 - p.cpos.1) * p.sinAz
      + ((p.offsets b d).2.1 - p.cpos.2.1) * p.cosAz) * p.sinZa
    + ((p.offsets b d).2.2 - p.cpos.2.2) * p.cosZa) / lightspeed

/-- Mean of the 16 calc_Kdelays geometric delays of one beamformer. -/
def bfMeanK (p : SolveParams) (b : Fin 16) : ℚ :=
  ((List.finRange 16).map (fun d => geomDelayK p b d)).sum / 16

/-- Mean first-stage delay already allocated in the input table:
`sum(indelays[bfid].values()) * MSTEP / 16.0`. -/
def inMean (indelays : DelayTable) (b : Fin 16) : ℚ :=
  ((List.finRange 16).map (fun d => ((indelays.fine b d : ℤ) : ℚ))).sum
    * MSTEP / 16

/-- The clamp of calc_Kdelays: only the integer delay is clamped (the
`delay2` updates are commented out in this function). -/
def clampKidOnly (m : ℚ) : ℤ :=
  if naiveKid m > MAXV2 - HEADROOM then MAXV2 - HEADROOM
  else if naiveKid m < MINV2 + HEADROOM then MINV2 + HEADROOM
  else naiveKid m

/-- The optimiser cost of calc_Kdelays: squared residuals against the
fixed input first-stage delays, with no penalty term and no rounding. -/
def kCandidateCost (dl : Fin 16 → ℚ) (ind : Fin 16 → ℤ) (kidelay : ℤ) : ℚ :=
  ((List.finRange 16).map (fun d =>
    (dl d - ((ind d : ℚ) * MSTEP + (kidelay : ℚ) * KSTEP)) ^ 2)).sum

/-- The second-stage integer delay calc_Kdelays settles on for one
beamformer. -/
def kStage2 (p : SolveParams) (indelays : DelayTable) (b : Fin 16) : ℤ :=
  if p.optimise then
    optimiseKid (kCandidateCost (fun d => geomDelayK p b d) (indelays.fine b))
      (clampKidOnly (bfMeanK p b - inMean indelays b))
  else clampKidOnly (bfMeanK p b - inMean indelays b)

/-- calc_Kdelays from src/pointing.py: the same sanity check as
calc_delays, second-stage-only requantisation, first-stage delays copied
from the input, then the shared final error pass. -/
def calc_Kdelays (p : SolveParams) (indelays : DelayTable) :
    Option (DelayTable × SolveDiag) :=
  if |90 - p.el| > 90 then none
  else
    finalLoop p.strict p.clipdelays p.errorlimit (geomDelayK p) allPairs
      ⟨indelays.fine, fun b => kStage2 p indelays b⟩
      (fun _ _ => 0) 0 0 0

/-! ## Lemmas about the final error pass -/

/-- One unfolding of the final pass, with the let bindings expanded. -/
lemma finalLoop_cons (strict clipdelays : Bool) (errorlimit : ℚ)
    (delays : Fin 16 → Fin 16 → ℚ) (b d : Fin 16)
    (rest : List (Fin 16 × Fin 16)) (tbl : DelayTable)
    (errs : Fin 16 → Fin 16 → ℚ) (sqe maxerr : ℚ) (off : ℕ) :
    finalLoop strict clipdelays errorlimit delays ((b, d) :: rest) tbl errs
        sqe maxerr off =
      if |delays b d - ((tbl.fine b d : ℚ) * MSTEP + (tbl.kdel b : ℚ) * KSTEP)|
          > errorlimit then
        if strict then none
        else
          finalLoop strict clipdelays errorlimit delays rest
            (if clipdelays then setFine tbl b d 16 else tbl)
            (setCell errs b d (delays b d -
              ((tbl.fine b d : ℚ) * MSTEP + (tbl.kdel b : ℚ) * KSTEP)))
            (sqe + (delays b d -
              ((tbl.fine b d : ℚ) * MSTEP + (tbl.kdel b : ℚ) * KSTEP)) *
              (delays b d -
              ((tbl.fine b d : ℚ) * MSTEP + (tbl.kdel b : ℚ) * KSTEP)))
            (if |delays b d -
                ((tbl.fine b d : ℚ) * MSTEP + (tbl.kdel b : ℚ) * KSTEP)| >
                maxerr then
              |delays b d -
                ((tbl.fine b d : ℚ) * MSTEP + (tbl.kdel b : ℚ) * KSTEP)|
             else maxerr)
            (off + 1)
      else
        finalLoop strict clipdelays errorlimit delays rest tbl
          (setCell errs b d (delays b d -
            ((tbl.fine b d : ℚ) * MSTEP + (tbl.kdel b : ℚ) * KSTEP)))
          (sqe + (delays b d -
            ((tbl.fine b d : ℚ) * MSTEP + (tbl.kdel b : ℚ) * KSTEP)) *
            (delays b d -
            ((tbl.fine b d : ℚ) * MSTEP + (tbl.kdel b : ℚ) * KSTEP)))
          (if |delays b d -
              ((tbl.fine b d : ℚ) * MSTEP + (tbl.kdel b : ℚ) * KSTEP)| >
              maxerr then
            |delays b d -
              ((tbl.fine b d : ℚ) * MSTEP + (tbl.kdel b : ℚ) * KSTEP)|
           else maxerr)
          off := rfl

/-- Writing one cell leaves every other cell unchanged. -/
lemma setFine_other (tbl : DelayTable) (b d b2 d2 : Fin 16) (v : ℤ)
    (h : ¬(b2 = b ∧ d2 = d)) :
    (setFine tbl b d v).fine b2 d2 = tbl.fine b2 d2 := by
  simp only [setFine, if_neg h]

/-- Writing one cell stores the value at that cell. -/
lemma setFine_same (tbl : DelayTable) (b d : Fin 16) (v : ℤ) :
    (setFine tbl b d v).fine b d = v := by
  simp [setFine]

/-- Writing a fine cell never touches the Kaelus row. -/
lemma setFine_kdel (tbl : DelayTable) (b d : Fin 16) (v : ℤ) :
    (setFine tbl b d v).kdel = tbl.kdel := rfl

/-- Whatever the final pass returns, its Kaelus delays are the input
ones and each first-stage delay is either the input one or the disable
sentinel 16. -/
lemma finalLoop_some_shape (strict clipdelays : Bool) (errorlimit : ℚ)
    (delays : Fin 16 → Fin 16 → ℚ) :
    ∀ (L : List (Fin 16 × Fin 16)) (tbl : DelayTable)
      (errs : Fin 16 → Fin 16 → ℚ) (sqe maxerr : ℚ) (off : ℕ)
      (out : DelayTable) (diag : SolveDiag),
      finalLoop strict clipdelays errorlimit delays L tbl errs sqe maxerr off
          = some (out, diag) →
      out.kdel = tbl.kdel ∧
        ∀ b d, out.fine b d = tbl.fine b d ∨ out.fine b d = 16 := by
  intro L
  induction L with
  | nil =>
      intro tbl errs sqe maxerr off out diag h
      simp only [finalLoop, Option.some_inj, Prod.mk.injEq] at h
      rw [← h.1]
      exact ⟨rfl, fun b d => Or.inl rfl⟩
  | cons hd rest ih =>
      obtain ⟨b, d⟩ := hd
      intro tbl errs sqe maxerr off out diag h
      rw [finalLoop_cons] at h
      split at h
      · split at h
        · exact absurd h (by simp)
        · have hres := ih _ _ _ _ _ _ _ h
          constructor
          · rw [hres.1]
            split
            · rfl
            · rfl
          · intro b2 d2
            rcases hres.2 b2 d2 with h1 | h1
            · rw [h1]
              split
              · by_cases hcell : b2 = b ∧ d2 = d
                · right
                  obtain ⟨rfl, rfl⟩ := hcell
                  exact setFine_same tbl b2 d2 16
                · left
                  exact setFine_other tbl b d b2 d2 16 hcell
              · left
                rfl
            · exact Or.inr h1
      · exact ih _ _ _ _ _ _ _ h

/-- When `strict` is set and some dipole in the remaining worklist has a
residual beyond the error limit, the final pass aborts with `none`. -/
lemma finalLoop_strict_abort (clipdelays : Bool) (errorlimit : ℚ)
    (delays : Fin 16 → Fin 16 → ℚ) (fine0 : Fin 16 → Fin 16 → ℤ) :
    ∀ (L : List (Fin 16 × Fin 16)) (tbl : DelayTable)
      (errs : Fin 16 → Fin 16 → ℚ) (sqe maxerr : ℚ) (off : ℕ),
      (∀ pr ∈ L, tbl.fine pr.1 pr.2 = fine0 pr.1 pr.2) →
      (∃ pr ∈ L, |delays pr.1 pr.2 - ((fine0 pr.1 pr.2 : ℚ) * MSTEP
        + (tbl.kdel pr.1 : ℚ) * KSTEP)| > errorlimit) →
      finalLoop true clipdelays errorlimit delays L tbl errs sqe maxerr off
        = none := by
  intro L
  induction L with
  | nil =>
      intro tbl errs sqe maxerr off _ hex
      simp at hex
  | cons hd rest ih =>
      obtain ⟨b, d⟩ := hd
      intro tbl errs sqe maxerr off hagree hex
      have hbd : tbl.fine b d = fine0 b d := hagree (b, d) (List.mem_cons_self _ _)
      rw [finalLoop_cons, hbd]
      by_cases hoffhd : |delays b d - ((fine0 b d : ℚ) * MSTEP
          + (tbl.kdel b : ℚ) * KSTEP)| > errorlimit
      · rw [if_pos hoffhd]
        simp
      · rw [if_neg hoffhd]
        refine ih tbl _ _ _ _ ?_ ?_
        · intro pr hpr
          exact hagree pr (List.mem_cons_of_mem _ hpr)
        · rcases hex with ⟨pr, hmem, hpr⟩
          rcases List.mem_cons.mp hmem with rfl | hmem2
          · exact absurd hpr hoffhd
          · exact ⟨pr, hmem2, hpr⟩

/-- Full characterisation of the non-strict final pass: it always
completes; the Kaelus row is returned unchanged; cells outside the
worklist are untouched; a cell whose residual (with respect to the
original table) is beyond the limit is set to the sentinel 16 when
`clipdelays` is set and left alone otherwise; cells with small residual
are untouched; and the off counter grows by exactly one per offending
cell. -/
lemma finalLoop_nonstrict_char (clipdelays : Bool) (errorlimit : ℚ)
    (delays : Fin 16 → Fin 16 → ℚ) (fine0 : Fin 16 → Fin 16 → ℤ)
    (kdel0 : Fin 16 → ℤ) :
    ∀ (L : List (Fin 16 × Fin 16)) (tbl : DelayTable)
      (errs : Fin 16 → Fin 16 → ℚ) (sqe maxerr : ℚ) (off : ℕ),
      L.Nodup →
      tbl.kdel = kdel0 →
      (∀ pr ∈ L, tbl.fine pr.1 pr.2 = fine0 pr.1 pr.2) →
      ∃ out diag,
        finalLoop false clipdelays errorlimit delays L tbl errs sqe maxerr off
            = some (out, diag) ∧
        out.kdel = kdel0 ∧
        (∀ pr : Fin 16 × Fin 16, pr ∉ L →
          out.fine pr.1 pr.2 = tbl.fine pr.1 pr.2) ∧
        (∀ pr ∈ L, |delays pr.1 pr.2 - ((fine0 pr.1 pr.2 : ℚ) * MSTEP
            + (kdel0 pr.1 : ℚ) * KSTEP)| > errorlimit →
          out.fine pr.1 pr.2 = if clipdelays then 16 else tbl.fine pr.1 pr.2) ∧
        (∀ pr ∈ L, ¬(|delays pr.1 pr.2 - ((fine0 pr.1 pr.2 : ℚ) * MSTEP
            + (kdel0 pr.1 : ℚ) * KSTEP)| > errorlimit) →
          out.fine pr.1 pr.2 = tbl.fine pr.1 pr.2) ∧
        diag.offcount = off + L.countP (fun pr =>
          decide (|delays pr.1 pr.2 - ((fine0 pr.1 pr.2 : ℚ) * MSTEP
            + (kdel0 pr.1 : ℚ) * KSTEP)| > errorlimit)) := by
  intro L
  induction L with
  | nil =>
      intro tbl errs sqe maxerr off _ hk _
      refine ⟨tbl, ⟨delays, errs, sqe, maxerr, off⟩, rfl, hk, ?_, ?_, ?_, ?_⟩
      · intro pr _; rfl
      · intro pr hpr; simp at hpr
      · intro pr hpr; simp at hpr
      · simp
  | cons hd rest ih =>
      obtain ⟨b, d⟩ := hd
      intro tbl errs sqe maxerr off hnd hk hagree
      have hndrest : rest.Nodup := (List.nodup_cons.mp hnd).2
      have hhdnot : (b, d) ∉ rest := (List.nodup_cons.mp hnd).1
      have hbd : tbl.fine b d = fine0 b d :=
        hagree (b, d) (List.mem_cons_self _ _)
      by_cases hoffhd : |delays b d - ((fine0 b d : ℚ) * MSTEP
          + (kdel0 b : ℚ) * KSTEP)| > errorlimit
      · -- the head cell is an offender: it is marked (or not) and counted
        set tbl2 : DelayTable :=
          if clipdelays then setFine tbl b d 16 else tbl with htbl2
        have htbl2k : tbl2.kdel = kdel0 := by
          rw [htbl2]; split
          · rw [setFine_kdel]; exact hk
          · exact hk
        have htbl2other : ∀ pr : Fin 16 × Fin 16, pr ≠ (b, d) →
            tbl2.fine pr.1 pr.2 = tbl.fine pr.1 pr.2 := by
          intro pr hne
          rw [htbl2]; split
          · refine setFine_other tbl b d pr.1 pr.2 16 ?_
            intro hcell
            exact hne (Prod.ext hcell.1 hcell.2)
          · rfl
        have hagree2 : ∀ pr ∈ rest, tbl2.fine pr.1 pr.2 = fine0 pr.1 pr.2 := by
          intro pr hpr
          rw [htbl2other pr (by rintro rfl; exact hhdnot hpr)]
          exact hagree pr (List.mem_cons_of_mem _ hpr)
        obtain ⟨out, diag, heq, hok, hfr, hoffm, hnoffm, hcount⟩ :=
          ih tbl2 (setCell errs b d (delays b d - ((tbl.fine b d : ℚ) * MSTEP
              + (tbl.kdel b : ℚ) * KSTEP)))
            (sqe + (delays b d - ((tbl.fine b d : ℚ) * MSTEP
              + (tbl.kdel b : ℚ) * KSTEP)) *
              (delays b d - ((tbl.fine b d : ℚ) * MSTEP
              + (tbl.kdel b : ℚ) * KSTEP)))
            (if |delays b d - ((tbl.fine b d : ℚ) * MSTEP
                + (tbl.kdel b : ℚ) * KSTEP)| > maxerr then
              |delays b d - ((tbl.fine b d : ℚ) * MSTEP
                + (tbl.kdel b : ℚ) * KSTEP)|
             else maxerr)
            (off + 1) hndrest htbl2k hagree2
        refine ⟨out, diag, ?_, hok, ?_, ?_, ?_, ?_⟩
        · rw [finalLoop_cons]
          rw [hbd, hk]
          rw [if_pos hoffhd]
          simp only [Bool.false_eq_true, if_false]
          rw [← hbd, ← hk]
          exact heq
        · intro pr hpr
          have hprrest : pr ∉ rest := fun hh => hpr (List.mem_cons_of_mem _ hh)
          have hprhd : pr ≠ (b, d) := fun hh => hpr (hh ▸ List.mem_cons_self _ _)
          rw [hfr pr hprrest, htbl2other pr hprhd]
        · intro pr hpr hoffpr
          rcases List.mem_cons.mp hpr with rfl | hpr2
          · rw [hfr (b, d) hhdnot, htbl2]
            split
            · exact setFine_same tbl b d 16
            · rfl
          · rw [hoffm pr hpr2 hoffpr]
            split
            · rfl
            · exact htbl2other pr (by rintro rfl; exact hhdnot hpr2)
        · intro pr hpr hnoffpr
          rcases List.mem_cons.mp hpr with rfl | hpr2
          · exact absurd hoffhd hnoffpr
          · rw [hnoffm pr hpr2 hnoffpr]
            exact htbl2other pr (by rintro rfl; exact hhdnot hpr2)
        · rw [hcount, List.countP_cons]
          simp only [hoffhd]
          simp
          omega
      · -- the head cell has a small residual: nothing changes for it
        obtain ⟨out, diag, heq, hok, hfr, hoffm, hnoffm, hcount⟩ :=
          ih tbl (setCell errs b d (delays b d - ((tbl.fine b d : ℚ) * MSTEP
              + (tbl.kdel b : ℚ) * KSTEP)))
            (sqe + (delays b d - ((tbl.fine b d : ℚ) * MSTEP
              + (tbl.kdel b : ℚ) * KSTEP)) *
              (delays b d - ((tbl.fine b d : ℚ) * MSTEP
              + (tbl.kdel b : ℚ) * KSTEP)))
            (if |delays b d - ((tbl.fine b d : ℚ) * MSTEP
                + (tbl.kdel b : ℚ) * KSTEP)| > maxerr then
              |delays b d - ((tbl.fine b d : ℚ) * MSTEP
                + (tbl.kdel b : ℚ) * KSTEP)|
             else maxerr)
            off hndrest hk
            (fun pr hpr => hagree pr (List.mem_cons_of_mem _ hpr))
        refine ⟨out, diag, ?_, hok, ?_, ?_, ?_, ?_⟩
        · rw [finalLoop_cons]
          rw [hbd, hk]
          rw [if_neg hoffhd]
          rw [← hbd, ← hk]
          exact heq
        · intro pr hpr
          exact hfr pr (fun hh => hpr (List.mem_cons_of_mem _ hh))
        · intro pr hpr hoffpr
          rcases List.mem_cons.mp hpr with rfl | hpr2
          · exact absurd hoffpr hoffhd
          · exact hoffm pr hpr2 hoffpr
        · intro pr hpr hnoffpr
          rcases List.mem_cons.mp hpr with rfl | hpr2
          · exact hfr (b, d) hhdnot
          · exact hnoffm pr hpr2 hnoffpr
        · rw [hcount, List.countP_cons]
          simp only [hoffhd]
          simp

/-! ## Range lemmas for the quantised delays -/

/-- The first-stage clip expression lands in [MINV1, MAXV1]. -/
lemma clip1_range (i : ℤ) :
    MINV1 ≤ (if i < MINV1 then MINV1 else if i > MAXV1 then MAXV1 else i) ∧
      (if i < MINV1 then MINV1 else if i > MAXV1 then MAXV1 else i) ≤ MAXV1 := by
  split
  · exact ⟨by decide, by decide⟩
  · split
    · exact ⟨by decide, by decide⟩
    · rename_i h1 h2
      simp only [MINV1, MAXV1] at h1 h2 ⊢
      omega

/-- With `clipdelays` set, every first-stage delay produced by the
per-beamformer quantisation of calc_delays lies in [MINV1, MAXV1]. -/
lemma fineInit_range (p : SolveParams) (hclip : p.clipdelays = true)
    (b d : Fin 16) :
    MINV1 ≤ fineInit p b d ∧ fineInit p b d ≤ MAXV1 := by
  have h := clip1_range (pyRound ((geomDelay p b d - (bfStage2 p b).2) / MSTEP))
  unfold fineInit
  rw [hclip]
  simpa using h

/-- The clamped naive Kaelus delay of calc_delays lies in the physical
window. -/
lemma clampKidDelay_fst_range (m : ℚ) :
    MINV2 + HEADROOM ≤ (clampKidDelay m).1 ∧
      (clampKidDelay m).1 ≤ MAXV2 - HEADROOM := by
  unfold clampKidDelay
  split
  · exact ⟨by decide, by decide⟩
  · split
    · exact ⟨by decide, by decide⟩
    · rename_i h1 h2
      simp only [MINV2, MAXV2, HEADROOM] at h1 h2 ⊢
      omega

/-- The clamped naive Kaelus delay of calc_Kdelays lies in the physical
window. -/
lemma clampKidOnly_range (m : ℚ) :
    MINV2 + HEADROOM ≤ clampKidOnly m ∧ clampKidOnly m ≤ MAXV2 - HEADROOM := by
  unfold clampKidOnly
  split
  · exact ⟨by decide, by decide⟩
  · split
    · exact ⟨by decide, by decide⟩
    · rename_i h1 h2
      simp only [MINV2, MAXV2, HEADROOM] at h1 h2 ⊢
      omega

/-- Members of the Python integer range `range(a, b + 1)`. -/
lemma intRange_bounds (a b x : ℤ) (h : x ∈ intRange a b) : a ≤ x ∧ x ≤ b := by
  unfold intRange at h
  rcases List.mem_map.mp h with ⟨i, hi, rfl⟩
  rw [List.mem_range] at hi
  omega

/-- The best-candidate fold preserves any property holding for the
initial best candidate and every tried candidate. -/
lemma bestKidFold_pres (cost : ℤ → ℚ) (P : ℤ → Prop) :
    ∀ (cands : List ℤ) (best : ℤ × ℚ), P best.1 → (∀ k ∈ cands, P k) →
      P (bestKidFold cost cands best).1 := by
  intro cands
  induction cands with
  | nil =>
      intro best hb _
      exact hb
  | cons k rest ih =>
      intro best hb hc
      rw [bestKidFold]
      refine ih _ ?_ (fun k2 h2 => hc k2 (List.mem_cons_of_mem _ h2))
      split
      · exact hc k (List.mem_cons_self _ _)
      · exact hb

/-- The optimiser never leaves the physical Kaelus window when started
inside it: the search window is clipped to the physical range and the
fall-back is the initial value. -/
lemma optimiseKid_range (cost : ℤ → ℚ) (kid : ℤ)
    (hkid : MINV2 + HEADROOM ≤ kid ∧ kid ≤ MAXV2 - HEADROOM) :
    MINV2 + HEADROOM ≤ optimiseKid cost kid ∧
      optimiseKid cost kid ≤ MAXV2 - HEADROOM := by
  unfold optimiseKid
  refine bestKidFold_pres cost
    (fun k => MINV2 + HEADROOM ≤ k ∧ k ≤ MAXV2 - HEADROOM) _ _ hkid ?_
  intro k hk
  have hb := intRange_bounds _ _ _ hk
  exact ⟨le_trans (le_max_left _ _) hb.1, le_trans hb.2 (min_le_left _ _)⟩

/-- Every second-stage delay of calc_delays lies in the physical window,
with or without optimisation. -/
lemma bfStage2_fst_range (p : SolveParams) (b : Fin 16) :
    MINV2 + HEADROOM ≤ (bfStage2 p b).1 ∧
      (bfStage2 p b).1 ≤ MAXV2 - HEADROOM := by
  unfold bfStage2
  split
  · dsimp only
    exact optimiseKid_range _ _ (clampKidDelay_fst_range _)
  · exact clampKidDelay_fst_range _

/-- Every second-stage delay of calc_Kdelays lies in the physical
window. -/
lemma kStage2_range (p : SolveParams) (indelays : DelayTable) (b : Fin 16) :
    MINV2 + HEADROOM ≤ kStage2 p indelays b ∧
      kStage2 p indelays b ≤ MAXV2 - HEADROOM := by
  unfold kStage2
  split
  · exact optimiseKid_range _ _ (clampKidOnly_range _)
  · exact clampKidOnly_range _

/-- The worklist of the final pass visits every (beamformer, dipole)
pair. -/
lemma mem_allPairs (pr : Fin 16 × Fin 16) : pr ∈ allPairs := by
  obtain ⟨b, d⟩ := pr
  unfold allPairs
  simp only [List.mem_flatMap, List.mem_map]
  exact ⟨b, List.mem_finRange b, d, List.mem_finRange d, rfl⟩

/-- The worklist of the final pass visits every pair exactly once. -/
lemma allPairs_nodup : allPairs.Nodup := by
  unfold allPairs
  refine List.nodup_flatMap.2 ⟨?_, ?_⟩
  · intro b _
    refine List.Nodup.map ?_ (List.nodup_finRange 16)
    intro d1 d2 h
    simpa using congrArg Prod.snd h
  · refine List.Pairwise.imp ?_ (List.nodup_finRange 16)
    intro b1 b2 hne x hx1 hx2
    simp only [List.mem_map] at hx1 hx2
    obtain ⟨d1, _, rfl⟩ := hx1
    obtain ⟨d2, _, h2⟩ := hx2
    exact hne (by simpa using congrArg Prod.fst h2.symm)

/-- When no dipole in the worklist is over the error limit, the final
pass completes and returns the table unchanged (it only ever writes on
over-limit cells). -/
lemma finalLoop_no_offender (strict clipdelays : Bool) (errorlimit : ℚ)
    (delays : Fin 16 → Fin 16 → ℚ) (fine0 : Fin 16 → Fin 16 → ℤ)
    (kdel0 : Fin 16 → ℤ) :
    ∀ (L : List (Fin 16 × Fin 16)) (tbl : DelayTable)
      (errs : Fin 16 → Fin 16 → ℚ) (sqe maxerr : ℚ) (off : ℕ),
      tbl.kdel = kdel0 →
      (∀ pr ∈ L, tbl.fine pr.1 pr.2 = fine0 pr.1 pr.2) →
      (∀ pr ∈ L, ¬(|delays pr.1 pr.2 - ((fine0 pr.1 pr.2 : ℚ) * MSTEP
        + (kdel0 pr.1 : ℚ) * KSTEP)| > errorlimit)) →
      ∃ diag, finalLoop strict clipdelays errorlimit delays L tbl errs sqe
        maxerr off = some (tbl, diag) := by
  intro L
  induction L with
  | nil =>
      intro tbl errs sqe maxerr off _ _ _
      exact ⟨⟨delays, errs, sqe, maxerr, off⟩, rfl⟩
  | cons hd rest ih =>
      obtain ⟨b, d⟩ := hd
      intro tbl errs sqe maxerr off hk hagree hno
      rw [finalLoop_cons, hagree (b, d) (List.mem_cons_self _ _), hk,
        if_neg (hno (b, d) (List.mem_cons_self _ _))]
      exact ih tbl _ _ _ _ hk
        (fun pr hpr => hagree pr (List.mem_cons_of_mem _ hpr))
        (fun pr hpr => hno pr (List.mem_cons_of_mem _ hpr))

/-! ## Claim theorems for the delay solver -/

/-- The residual error of one dipole: ideal geometric delay minus the
quantised two-stage delay, as recomputed by the final pass of
calc_delays on the table it receives. -/
def residual (p : SolveParams) (pr : Fin 16 × Fin 16) : ℚ :=
  geomDelay p pr.1 pr.2 - ((fineInit p pr.1 pr.2 : ℚ) * MSTEP
    + ((bfStage2 p pr.1).1 : ℚ) * KSTEP)

/-- Solver inputs with the all-zero dipole layout: all offsets, cpos and
corrections zero, azimuth 0, optimisation off, clipdelays on; elevation,
error limit and strictness as given (the trigonometric oracle values are
irrelevant because every coordinate is zero). -/
def zeroParams (el errl : ℚ) (strict : Bool) : SolveParams :=
  ⟨fun _ _ => (0, 0, 0), 0, el, 0, 1, 0, 1, errl, strict, false, true,
    (0, 0, 0), fun _ => 0⟩

lemma pyRound_zero : pyRound 0 = 0 := by
  norm_num [pyRound]

lemma zeroParams_geomDelay (el errl : ℚ) (strict : Bool) (b d : Fin 16) :
    geomDelay (zeroParams el errl strict) b d = 0 := by
  simp [geomDelay, zeroParams]

lemma zeroParams_bfMean (el errl : ℚ) (strict : Bool) (b : Fin 16) :
    bfMean (zeroParams el errl strict) b = 0 := by
  simp [bfMean, zeroParams_geomDelay]

lemma clampKidDelay_zero : clampKidDelay 0 = (0, 0) := by
  have hnk : naiveKid 0 = 0 := by
    rw [naiveKid, zero_div]
    exact pyRound_zero
  unfold clampKidDelay
  rw [hnk]
  norm_num [MAXV2, MINV2, HEADROOM]

lemma zeroParams_bfStage2 (el errl : ℚ) (strict : Bool) (b : Fin 16) :
    bfStage2 (zeroParams el errl strict) b = (0, 0) := by
  have hopt : (zeroParams el errl strict).optimise = false := rfl
  unfold bfStage2
  rw [hopt]
  simp only [Bool.false_eq_true, if_false]
  rw [zeroParams_bfMean, clampKidDelay_zero]

lemma zeroParams_fineInit (el errl : ℚ) (strict : Bool) (b d : Fin 16) :
    fineInit (zeroParams el errl strict) b d = 0 := by
  have hclip : (zeroParams el errl strict).clipdelays = true := rfl
  unfold fineInit
  rw [hclip, zeroParams_geomDelay, zeroParams_bfStage2]
  norm_num [pyRound_zero, MINV1, MAXV1]

lemma zeroParams_residual (el errl : ℚ) (strict : Bool)
    (pr : Fin 16 × Fin 16) :
    residual (zeroParams el errl strict) pr = 0 := by
  unfold residual
  rw [zeroParams_geomDelay, zeroParams_fineInit, zeroParams_bfStage2]
  norm_num

lemma zeroParams_calc_delays (el errl : ℚ) (strict : Bool)
    (hsane : ¬(|90 - el| > 90)) (herr : 0 ≤ errl) :
    ∃ diag, calc_delays (zeroParams el errl strict) =
      some (⟨fun b d => fineInit (zeroParams el errl strict) b d,
        fun b => (bfStage2 (zeroParams el errl strict) b).1⟩, diag) := by
  unfold calc_delays
  rw [show (zeroParams el errl strict).el = el from rfl, if_neg hsane]
  refine finalLoop_no_offender _ _ _ _
    (fun b d => fineInit (zeroParams el errl strict) b d)
    (fun b => (bfStage2 (zeroParams el errl strict) b).1)
    allPairs _ _ _ _ _ rfl (fun pr _ => rfl) ?_
  intro pr _
  beta_reduce
  rw [zeroParams_geomDelay, zeroParams_fineInit, zeroParams_bfStage2,
    show (zeroParams el errl strict).errorlimit = errl from rfl]
  norm_num
  exact herr

/-! Zero-layout evaluation of calc_Kdelays with the all-zero input
table. -/

lemma zeroParams_geomDelayK (el errl : ℚ) (strict : Bool) (b d : Fin 16) :
    geomDelayK (zeroParams el errl strict) b d = 0 := by
  simp [geomDelayK, zeroParams]

lemma zeroParams_bfMeanK (el errl : ℚ) (strict : Bool) (b : Fin 16) :
    bfMeanK (zeroParams el errl strict) b = 0 := by
  simp [bfMeanK, zeroParams_geomDelayK]

lemma inMean_zero (b : Fin 16) :
    inMean ⟨fun _ _ => 0, fun _ => 0⟩ b = 0 := by
  simp [inMean]

lemma clampKidOnly_zero : clampKidOnly 0 = 0 := by
  have hnk : naiveKid 0 = 0 := by
    rw [naiveKid, zero_div]
    exact pyRound_zero
  unfold clampKidOnly
  rw [hnk]
  norm_num [MAXV2, MINV2, HEADROOM]

lemma zeroParams_kStage2 (el errl : ℚ) (strict : Bool) (b : Fin 16) :
    kStage2 (zeroParams el errl strict) ⟨fun _ _ => 0, fun _ => 0⟩ b = 0 := by
  have hopt : (zeroParams el errl strict).optimise = false := rfl
  unfold kStage2
  rw [hopt]
  simp only [Bool.false_eq_true, if_false]
  rw [zeroParams_bfMeanK, inMean_zero]
  norm_num [clampKidOnly_zero]

lemma zeroParams_calc_Kdelays (el errl : ℚ) (strict : Bool)
    (hsane : ¬(|90 - el| > 90)) (herr : 0 ≤ errl) :
    ∃ diag, calc_Kdelays (zeroParams el errl strict)
        ⟨fun _ _ => 0, fun _ => 0⟩ =
      some (⟨fun _ _ => 0,
        fun b => kStage2 (zeroParams el errl strict)
          ⟨fun _ _ => 0, fun _ => 0⟩ b⟩, diag) := by
  unfold calc_Kdelays
  rw [show (zeroParams el errl strict).el = el from rfl, if_neg hsane]
  refine finalLoop_no_offender _ _ _ _
    (fun _ _ => (0 : ℤ))
    (fun b => kStage2 (zeroParams el errl strict) ⟨fun _ _ => 0, fun _ => 0⟩ b)
    allPairs _ _ _ _ _ rfl (fun pr _ => rfl) ?_
  intro pr _
  beta_reduce
  rw [zeroParams_geomDelayK, zeroParams_kStage2,
    show (zeroParams el errl strict).errorlimit = errl from rfl]
  norm_num
  exact herr

/-- C3 (code bug): at elevation 91 degrees — outside [0, 90] — both
calc_delays and calc_Kdelays accept the pointing and return a delay
table instead of the failure indicator (None, None): the sanity check
tests `abs(90 - el) > 90`, which only rejects elevations below 0 or
above 180, contradicting its own error message "Elevation must be
between 0 and 90 degrees". -/
theorem calc_delays_el91_accepted :
    ((91 : ℚ) < 0 ∨ (90 : ℚ) < 91) ∧
      (calc_delays (zeroParams 91 MAXERRORSTRICT true)).isSome = true ∧
      (calc_Kdelays (zeroParams 91 MAXERRORSTRICT true)
        ⟨fun _ _ => 0, fun _ => 0⟩).isSome = true := by
  have hsane : ¬(|(90 : ℚ) - 91| > 90) := by norm_num
  have herr : (0 : ℚ) ≤ MAXERRORSTRICT := by
    norm_num [MAXERRORSTRICT, lightspeed]
  refine ⟨Or.inr (by norm_num), ?_, ?_⟩
  · obtain ⟨diag, heq⟩ := zeroParams_calc_delays 91 MAXERRORSTRICT true
      hsane herr
    rw [heq]
    rfl
  · obtain ⟨diag, heq⟩ := zeroParams_calc_Kdelays 91 MAXERRORSTRICT true
      hsane herr
    rw [heq]
    rfl

/-- C4: whenever some dipole's residual exceeds the error limit in
magnitude, calc_delays with `strict` returns (None, None) — no partial
table — and calc_delays with `strict` off and `clipdelays` on (and a
sane elevation, so that the solver runs at all) returns a table in which
every such dipole's first-stage delay is the disable sentinel 16, the
second-stage Kaelus delays are exactly the quantised values, untouched
by the marking, and the disabled counter equals the number of offending
dipoles. -/
theorem calc_delays_error_limit_handling (p : SolveParams)
    (hoff : ∃ pr : Fin 16 × Fin 16, |residual p pr| > p.errorlimit) :
    (p.strict = true → calc_delays p = none) ∧
    (p.strict = false → p.clipdelays = true → ¬(|90 - p.el| > 90) →
      ∃ out diag, calc_delays p = some (out, diag) ∧
        (∀ pr : Fin 16 × Fin 16, |residual p pr| > p.errorlimit →
          out.fine pr.1 pr.2 = 16) ∧
        out.kdel = (fun b => (bfStage2 p b).1) ∧
        diag.offcount = allPairs.countP (fun pr =>
          decide (|residual p pr| > p.errorlimit))) := by
  constructor
  · intro hstrict
    unfold calc_delays
    split
    · rfl
    · rw [hstrict]
      refine finalLoop_strict_abort p.clipdelays p.errorlimit (geomDelay p)
        (fun b d => fineInit p b d) allPairs _ _ _ _ _ ?_ ?_
      · intro pr _
        rfl
      · obtain ⟨pr, hpr⟩ := hoff
        exact ⟨pr, mem_allPairs pr, hpr⟩
  · intro hstrict hclip hsane
    unfold calc_delays
    rw [if_neg hsane, hstrict, hclip]
    obtain ⟨out, diag, heq, hok, hfr, hoffm, hnoffm, hcount⟩ :=
      finalLoop_nonstrict_char true p.errorlimit (geomDelay p)
        (fun b d => fineInit p b d) (fun b => (bfStage2 p b).1) allPairs
        ⟨fun b d => fineInit p b d, fun b => (bfStage2 p b).1⟩
        (fun _ _ => 0) 0 0 0 allPairs_nodup rfl (fun pr _ => rfl)
    refine ⟨out, diag, heq, ?_, hok, ?_⟩
    · intro pr hpr
      have := hoffm pr (mem_allPairs pr) hpr
      simpa using this
    · simpa using hcount

/-- Witness for C4: with the all-zero layout and a negative error limit
every dipole is an offender; in strict mode the call fails, in
non-strict clipping mode it completes (with, by the theorem, every
first-stage delay set to the sentinel). -/
theorem calc_delays_error_limit_handling_witness :
    calc_delays (zeroParams 90 (-1) true) = none ∧
      (calc_delays (zeroParams 90 (-1) false)).isSome = true := by
  have hoffT : ∃ pr : Fin 16 × Fin 16,
      |residual (zeroParams 90 (-1) true) pr|
        > (zeroParams 90 (-1) true).errorlimit := by
    refine ⟨(0, 0), ?_⟩
    rw [zeroParams_residual]
    norm_num [zeroParams]
  have hoffF : ∃ pr : Fin 16 × Fin 16,
      |residual (zeroParams 90 (-1) false) pr|
        > (zeroParams 90 (-1) false).errorlimit := by
    refine ⟨(0, 0), ?_⟩
    rw [zeroParams_residual]
    norm_num [zeroParams]
  constructor
  · exact (calc_delays_error_limit_handling (zeroParams 90 (-1) true)
      hoffT).1 rfl
  · obtain ⟨out, diag, heq, -⟩ :=
      (calc_delays_error_limit_handling (zeroParams 90 (-1) false)
        hoffF).2 rfl rfl (by norm_num [zeroParams])
    rw [heq]
    rfl

/-- C7: in every table returned by calc_delays with `clipdelays` on,
each of the 256 first-stage delays lies in [MINV1, MAXV1] = [-16, 15] or
equals the disable sentinel 16, and each of the 16 second-stage delays
lies in [MINV2 + HEADROOM, MAXV2 - HEADROOM] = [-128, 127]. -/
theorem calc_delays_table_ranges (p : SolveParams)
    (hclip : p.clipdelays = true) (out : DelayTable) (diag : SolveDiag)
    (h : calc_delays p = some (out, diag)) :
    (∀ b d, (MINV1 ≤ out.fine b d ∧ out.fine b d ≤ MAXV1) ∨
      out.fine b d = 16) ∧
    (∀ b, MINV2 + HEADROOM ≤ out.kdel b ∧ out.kdel b ≤ MAXV2 - HEADROOM) := by
  unfold calc_delays at h
  split at h
  · exact absurd h (by simp)
  · have hshape := finalLoop_some_shape p.strict p.clipdelays p.errorlimit
      (geomDelay p) allPairs
      ⟨fun b d => fineInit p b d, fun b => (bfStage2 p b).1⟩
      (fun _ _ => 0) 0 0 0 out diag h
    constructor
    · intro b d
      rcases hshape.2 b d with h1 | h1
      · left
        rw [h1]
        exact fineInit_range p hclip b d
      · right
        exact h1
    · intro b
      have hk := congrFun hshape.1 b
      rw [hk]
      exact bfStage2_fst_range p b

/-- Witness for C7: a zenith pointing of the all-zero layout returns a
table; its first cell and first Kaelus delay satisfy the ranges. -/
theorem calc_delays_table_ranges_witness :
    ((MINV1 ≤ fineInit (zeroParams 90 MAXERRORSTRICT true) 0 0 ∧
       fineInit (zeroParams 90 MAXERRORSTRICT true) 0 0 ≤ MAXV1) ∨
      fineInit (zeroParams 90 MAXERRORSTRICT true) 0 0 = 16) ∧
    (MINV2 + HEADROOM ≤ (bfStage2 (zeroParams 90 MAXERRORSTRICT true) 0).1 ∧
      (bfStage2 (zeroParams 90 MAXERRORSTRICT true) 0).1
        ≤ MAXV2 - HEADROOM) := by
  have hsane : ¬(|(90 : ℚ) - 90| > 90) := by norm_num
  have herr : (0 : ℚ) ≤ MAXERRORSTRICT := by
    norm_num [MAXERRORSTRICT, lightspeed]
  obtain ⟨diag, heq⟩ := zeroParams_calc_delays 90 MAXERRORSTRICT true
    hsane herr
  have hmain := calc_delays_table_ranges (zeroParams 90 MAXERRORSTRICT true)
    rfl _ diag heq
  exact ⟨hmain.1 0 0, hmain.2 0⟩

/-- C8 counterexample: the ideal delay 6525 ps with candidate Kaelus
delay 0 rounds to the fine delay 15, which lies inside the legal
first-stage range [-16, 15], yet the optimiser's test
`not (MINV1 < idelay1 < MAXV1)` penalises it: the boundary values are
treated as outside. -/
theorem optimise_penalty_counterexample :
    dipolePenalised 6525 0 = true ∧
      MINV1 ≤ pyRound (((6525 : ℚ) - ((0 : ℤ) : ℚ) * KSTEP) / MSTEP) ∧
      pyRound (((6525 : ℚ) - ((0 : ℤ) : ℚ) * KSTEP) / MSTEP) ≤ MAXV1 := by
  have h15 : pyRound (((6525 : ℚ) - ((0 : ℤ) : ℚ) * KSTEP) / MSTEP) = 15 := by
    norm_num [KSTEP, MSTEP, pyRound]
  refine ⟨?_, ?_, ?_⟩
  · unfold dipolePenalised
    rw [h15]
    decide
  · rw [h15]
    decide
  · rw [h15]
    decide

/-- C8 as amended: a candidate incurs the effectively infinite penalty
for a dipole exactly when that dipole's fine delay
`round((ideal - candidate*KSTEP)/MSTEP)` is at most MINV1 = -16 or at
least MAXV1 = 15 — i.e. the test is strict, so the boundary values -16
and +15, although legal after clipping, are also penalised — and a
candidate none of whose fine delays trips that test incurs only the
squared-residual cost. -/
theorem optimise_penalty_characterisation :
    (∀ (delay : ℚ) (kidelay : ℤ),
      dipolePenalised delay kidelay = true ↔
        (pyRound ((delay - (kidelay : ℚ) * KSTEP) / MSTEP) ≤ MINV1 ∨
         MAXV1 ≤ pyRound ((delay - (kidelay : ℚ) * KSTEP) / MSTEP))) ∧
    (∀ (dl : Fin 16 → ℚ) (kidelay : ℤ),
      (∀ d, dipolePenalised (dl d) kidelay = false) →
      candidateCost dl kidelay =
        ((List.finRange 16).map (fun d =>
          (dl d - ((pyRound ((dl d - (kidelay : ℚ) * KSTEP) / MSTEP) : ℚ)
            * MSTEP + (kidelay : ℚ) * KSTEP)) ^ 2)).sum) := by
  constructor
  · intro delay kidelay
    simp only [dipolePenalised, Bool.not_eq_true', Bool.and_eq_false_iff,
      decide_eq_false_iff_not, not_lt]
  · intro dl kidelay hpen
    unfold candidateCost
    refine congrArg List.sum ?_
    refine List.map_congr_left ?_
    intro d _
    simp [dipoleCost, hpen d]

/-- Witness for C8's amended theorem: all-zero ideal delays with
candidate 0 trip no penalty, and the cost is the plain sum of squared
residuals. -/
theorem optimise_penalty_characterisation_witness :
    candidateCost (fun _ => (0 : ℚ)) 0 =
      ((List.finRange 16).map (fun _ : Fin 16 =>
        ((0 : ℚ) - ((pyRound (((0 : ℚ) - ((0 : ℤ) : ℚ) * KSTEP) / MSTEP) : ℚ)
          * MSTEP + ((0 : ℤ) : ℚ) * KSTEP)) ^ 2)).sum := by
  have h0 : pyRound (((0 : ℚ) - ((0 : ℤ) : ℚ) * KSTEP) / MSTEP) = 0 := by
    have harg : (((0 : ℚ) - ((0 : ℤ) : ℚ) * KSTEP) / MSTEP) = 0 := by
      norm_num
    rw [harg]
    exact pyRound_zero
  have hp : dipolePenalised 0 0 = false := by
    unfold dipolePenalised
    rw [h0]
    decide
  exact optimise_penalty_characterisation.2 (fun _ => 0) 0 (fun _ => hp)

end EDA
